import Mathlib

set_option maxHeartbeats 1000000
set_option linter.dupNamespace false

namespace Gopheract

/-
Verification development for the gopheract ReAct-agent core.

The embedding covers, from the repository's latest revisions:
  - models.go: ChatMessage, Thought, Observation, StopReason, ToolCallArgs,
    ToolCall (with ArgsToMap), Action, ToolParamsMetadata, ToolMetadata,
    Tool, ToolDefinition (GetMetadata, Execute);
  - agent.go: OpenAIReActAgent with BuildSystemPrompt and Run;
  - the structured-output helper OpenAILLMStructuredPredict.

External collaborators are modelled explicitly:
  - encoding/json on the dynamic domain map[string]any is modelled by a small
    executable JSON codec over `JsonValue` (numbers as integers, the exactly
    representable fragment the repository's tools exchange; string escaping
    covers the two metacharacters, quote and backslash; no interstitial
    whitespace, matching the canonical texts the serializer produces);
  - mapstructure.Decode is modelled per concrete parameter struct (missing
    key leaves the zero value and is not an error; a value of the wrong
    dynamic type is an error), matching its default configuration;
  - the OpenAI model client is replaced by a deterministic script of
    structured replies, one entry consumed per structured-output call;
  - reflect-based metadata generation is modelled by carrying the field
    metadata that reflection would compute alongside each tool definition.
-/

/-- JSON values: the dynamic value domain of the repository's tool-call
parameter maps (Go `map[string]any` after `encoding/json` decoding).
Numbers are modelled as integers. -/
inductive JsonValue where
  | null
  | bool (b : Bool)
  | num (n : Int)
  | str (s : String)
  | arr (elems : List JsonValue)
  | obj (fields : List (String × JsonValue))

/-- Opening curly brace character (written via its escape). -/
def obrace : Char := '\x7b'

/-- Closing curly brace character (written via its escape). -/
def cbrace : Char := '\x7d'

/-- Escape the two JSON string metacharacters (quote and backslash);
all other characters pass through unchanged. -/
def escChars : List Char → List Char
  | [] => []
  | c :: cs => if c = '"' ∨ c = '\\' then '\\' :: c :: escChars cs else c :: escChars cs

/-- The decimal digit character for `n < 10`. -/
def digitChar (n : Nat) : Char := Char.ofNat (48 + n)

/-- Decimal digits of a natural number, most significant first. -/
def natDigits (n : Nat) : List Char :=
  if n < 10 then [digitChar n]
  else natDigits (n / 10) ++ [digitChar (n % 10)]
  termination_by n
  decreasing_by exact Nat.div_lt_self (by omega) (by omega)

/-- Decimal rendering of an integer. -/
def serInt (n : Int) : List Char :=
  if n < 0 then '-' :: natDigits n.natAbs else natDigits n.toNat

mutual

/-- Serialize a JSON value to its canonical text (no whitespace),
modelling `json.Marshal` on the dynamic domain. -/
def serVal : JsonValue → List Char
  | .null => 'n' :: ['u', 'l', 'l']
  | .bool true => 't' :: ['r', 'u', 'e']
  | .bool false => 'f' :: ['a', 'l', 's', 'e']
  | .num n => serInt n
  | .str s => '"' :: (escChars s.data ++ ['"'])
  | .arr [] => ['[', ']']
  | .arr (x :: xs) => '[' :: (serElems (x :: xs) ++ [']'])
  | .obj [] => [obrace, cbrace]
  | .obj (f :: fs) => obrace :: (serFields (f :: fs) ++ [cbrace])

/-- Comma-separated serialization of array elements. -/
def serElems : List JsonValue → List Char
  | [] => []
  | [x] => serVal x
  | x :: y :: xs => serVal x ++ ',' :: serElems (y :: xs)

/-- Comma-separated serialization of object fields. -/
def serFields : List (String × JsonValue) → List Char
  | [] => []
  | [(k, v)] => '"' :: (escChars k.data ++ '"' :: ':' :: serVal v)
  | (k, v) :: f :: fs =>
      ('"' :: (escChars k.data ++ '"' :: ':' :: serVal v)) ++ ',' :: serFields (f :: fs)

end

mutual

/-- Fuel needed by the recursive-descent reader for a value. -/
def jfuel : JsonValue → Nat
  | .arr xs => 1 + jfuelE xs
  | .obj fs => 1 + jfuelF fs
  | _ => 1

/-- Fuel needed for an array-element list. -/
def jfuelE : List JsonValue → Nat
  | [] => 1
  | x :: xs => 1 + max (jfuel x) (jfuelE xs)

/-- Fuel needed for an object-field list. -/
def jfuelF : List (String × JsonValue) → Nat
  | [] => 1
  | (_, v) :: fs => 1 + max (jfuel v) (jfuelF fs)

end

/-- Read the body of a JSON string (after the opening quote), undoing the
escaping of quote and backslash; returns the string contents and the rest. -/
def parseStrChars : List Char → Option (List Char × List Char)
  | [] => none
  | c :: cs =>
    if c = '"' then some ([], cs)
    else if c = '\\' then
      match cs with
      | e :: cs2 =>
        if e = '"' ∨ e = '\\' then
          match parseStrChars cs2 with
          | some (s, r) => some (e :: s, r)
          | none => none
        else none
      | [] => none
    else
      match parseStrChars cs with
      | some (s, r) => some (c :: s, r)
      | none => none

/-- Read a maximal run of decimal digits as a natural number. -/
def parseNatCh (cs : List Char) : Option (Nat × List Char) :=
  let ds := cs.takeWhile (fun c => c.isDigit)
  if ds.isEmpty then none
  else some (ds.foldl (fun a c => a * 10 + (c.toNat - 48)) 0, cs.dropWhile (fun c => c.isDigit))

/-- Read a JSON number (integer fragment). -/
def parseIntCh : List Char → Option (JsonValue × List Char)
  | [] => none
  | c :: r =>
    if c = '-' then
      match parseNatCh r with
      | some (n, r2) => some (.num (-(n : Int)), r2)
      | none => none
    else
      match parseNatCh (c :: r) with
      | some (n, r2) => some (.num (n : Int), r2)
      | none => none

mutual

/-- Recursive-descent reader for a JSON value, modelling `json.Unmarshal`
on canonical (whitespace-free) texts.  Fuel bounds the nesting depth. -/
def parseVal : Nat → List Char → Option (JsonValue × List Char)
  | 0, _ => none
  | fuel + 1, cs =>
    match cs with
    | [] => none
    | c :: r =>
      if c = 'n' then
        match r with
        | 'u' :: 'l' :: 'l' :: r2 => some (.null, r2)
        | _ => none
      else if c = 't' then
        match r with
        | 'r' :: 'u' :: 'e' :: r2 => some (.bool true, r2)
        | _ => none
      else if c = 'f' then
        match r with
        | 'a' :: 'l' :: 's' :: 'e' :: r2 => some (.bool false, r2)
        | _ => none
      else if c = '"' then
        match parseStrChars r with
        | some (s, r2) => some (.str (String.mk s), r2)
        | none => none
      else if c = '[' then
        match r with
        | ']' :: r2 => some (.arr [], r2)
        | _ =>
          match parseElems fuel r with
          | some (xs, r2) => some (.arr xs, r2)
          | none => none
      else if c = obrace then
        match r with
        | c2 :: r2 =>
          if c2 = cbrace then some (.obj [], r2)
          else
            match parseFields fuel (c2 :: r2) with
            | some (fs, r3) => some (.obj fs, r3)
            | none => none
        | [] => none
      else if c = '-' ∨ c.isDigit = true then parseIntCh (c :: r)
      else none

/-- Read one or more comma-separated values followed by a closing bracket. -/
def parseElems : Nat → List Char → Option (List JsonValue × List Char)
  | 0, _ => none
  | fuel + 1, cs =>
    match parseVal fuel cs with
    | some (v, r) =>
      match r with
      | ',' :: r2 =>
        match parseElems fuel r2 with
        | some (vs, r3) => some (v :: vs, r3)
        | none => none
      | ']' :: r2 => some ([v], r2)
      | _ => none
    | none => none

/-- Read one or more comma-separated `"key":value` pairs followed by a
closing brace. -/
def parseFields : Nat → List Char → Option (List (String × JsonValue) × List Char)
  | 0, _ => none
  | fuel + 1, cs =>
    match cs with
    | '"' :: r =>
      match parseStrChars r with
      | some (kcs, r2) =>
        match r2 with
        | ':' :: r3 =>
          match parseVal fuel r3 with
          | some (v, r4) =>
            match r4 with
            | ',' :: r5 =>
              match parseFields fuel r5 with
              | some (fs, r6) => some ((String.mk kcs, v) :: fs, r6)
              | none => none
            | c :: r5 => if c = cbrace then some ([(String.mk kcs, v)], r5) else none
            | [] => none
          | none => none
        | _ => none
      | none => none
    | _ => none

end

/-- Models `json.Unmarshal` of a payload string into a `map[string]any`:
the whole input must be a single JSON object; any other input is an error.
Returned fields are in textual order (duplicate keys are resolved last-wins
by the map insertion downstream, as in Go). -/
def jsonUnmarshalObj (s : String) : Except String (List (String × JsonValue)) :=
  match parseVal (s.data.length + 1) s.data with
  | some (.obj fields, []) => .ok fields
  | some _ => .error ("json: cannot unmarshal value into map[string]any: " ++ s)
  | none => .error ("invalid character in JSON payload: " ++ s)

/-- The untyped parameter mapping `map[string]any`, represented as an
association list (insertion order is a representation artifact of the
unordered Go map; lookups are the observable behavior). -/
abbrev ParamMap := List (String × JsonValue)

/-- Look up a key in a parameter mapping. -/
def lookupKV (k : String) : ParamMap → Option JsonValue
  | [] => none
  | (k2, v) :: rest => if k2 = k then some v else lookupKV k rest

/-- Map assignment `m[k] = v`: replace the binding in place, or append. -/
def insertKV (m : ParamMap) (k : String) (v : JsonValue) : ParamMap :=
  match m with
  | [] => [(k, v)]
  | (k2, v2) :: rest => if k2 = k then (k2, v) :: rest else (k2, v2) :: insertKV rest k v

/-- Copy every decoded field into the accumulating map (the
`for k := range unmar` loop body of ArgsToMap). -/
def insertFields (m : ParamMap) (fields : List (String × JsonValue)) : ParamMap :=
  fields.foldl (fun acc kv => insertKV acc kv.1 kv.2) m

/-- models.go: a single chat-history message. -/
structure ChatMessage where
  Role : String
  Content : String

/-- models.go: structured-output shape for the thinking step. -/
structure Thought where
  Thought : String

/-- models.go: structured-output shape for the observation step. -/
structure Observation where
  Observation : String

/-- models.go: the reason why the agent terminated its loop. -/
structure StopReason where
  Reason : String

/-- models.go: one tool-call argument; `ParameterValue` carries serialized
JSON data as a string. -/
structure ToolCallArgs where
  ParameterValue : String

/-- models.go: a tool call naming a tool and its argument list. -/
structure ToolCall where
  Name : String
  Args : List ToolCallArgs

/-- The argument loop of ToolCall.ArgsToMap: unmarshal each payload, abort on
the first decode failure, otherwise copy all keys into the accumulator. -/
def argsToMapGo : List ToolCallArgs → ParamMap → Except String ParamMap
  | [], acc => .ok acc
  | arg :: rest, acc =>
    match jsonUnmarshalObj arg.ParameterValue with
    | .error e => .error e
    | .ok fields => argsToMapGo rest (insertFields acc fields)

/-- models.go ToolCall.ArgsToMap: convert the argument list into one flat
parameter mapping. -/
def ToolCall.ArgsToMap (t : ToolCall) : Except String ParamMap :=
  argsToMapGo t.Args []

/-- models.go: the action produced by the Acting step — a tagged union whose
discriminant is `ActionType` ("_done" or "tool_call"); the `StopReason` and
`ToolCall` pointers are nilable, modelled as options. -/
structure Action where
  ActionType : String
  StopReason : Option StopReason
  ToolCall : Option ToolCall

/-- models.go: metadata for one tool parameter, derived by reflection from
the parameter struct's fields and their `json`/`description` tags. -/
structure ToolParamsMetadata where
  JsonDef : String
  Description : String
  TypeStr : String

/-- models.go: metadata describing a tool definition. -/
structure ToolMetadata where
  Name : String
  Description : String
  ParametersMetadata : List ToolParamsMetadata

/-- models.go: the Tool interface — metadata plus an executable capability
over the untyped parameter mapping.  Tool results (Go `any`) live in the
same dynamic domain as decoded JSON. -/
structure Tool where
  GetMetadata : ToolMetadata
  Execute : ParamMap → Except String JsonValue

/-- models.go: a tool definition generic over its parameter struct `T`.
Go derives `fieldsMeta` and `mapstructureDecode` from `T` by reflection
(GetMetadata's field walk; mapstructure.Decode with TagName "json"); the
embedding carries those reflection products as data. -/
structure ToolDefinition (T : Type) where
  fn : T → Except String JsonValue
  Name : String
  Description : String
  fieldsMeta : List ToolParamsMetadata
  mapstructureDecode : ParamMap → Except String T

/-- models.go ToolDefinition.GetMetadata. -/
def ToolDefinition.GetMetadata {T : Type} (t : ToolDefinition T) : ToolMetadata :=
  { Name := t.Name, Description := t.Description, ParametersMetadata := t.fieldsMeta }

/-- models.go ToolDefinition.Execute: convert the untyped parameter map into
the typed parameter struct (mapstructure with the `json` tag name), then
invoke the tool function; a conversion failure is returned without invoking
the function. -/
def ToolDefinition.Execute {T : Type} (t : ToolDefinition T) (params : ParamMap) :
    Except String JsonValue :=
  match t.mapstructureDecode params with
  | .error e => .error e
  | .ok typedParams => t.fn typedParams

/-- Package a tool definition as the Tool interface value. -/
def ToolDefinition.toTool {T : Type} (t : ToolDefinition T) : Tool :=
  { GetMetadata := t.GetMetadata, Execute := t.Execute }

mutual

/-- Go `fmt.Sprintf("%v", x)` on a dynamic value of the JSON domain. -/
def govFormat : JsonValue → String
  | .null => "<nil>"
  | .bool true => "true"
  | .bool false => "false"
  | .num n => String.mk (serInt n)
  | .str s => s
  | .arr xs => "[" ++ govFormatList xs ++ "]"
  | .obj fs => "map[" ++ govFormatFields fs ++ "]"

/-- Space-separated `%v` rendering of slice elements. -/
def govFormatList : List JsonValue → String
  | [] => ""
  | [x] => govFormat x
  | x :: y :: xs => govFormat x ++ " " ++ govFormatList (y :: xs)

/-- Space-separated `k:v` rendering of map entries. -/
def govFormatFields : List (String × JsonValue) → String
  | [] => ""
  | [(k, v)] => k ++ ":" ++ govFormat v
  | (k, v) :: f :: fs => k ++ ":" ++ govFormat v ++ " " ++ govFormatFields (f :: fs)

end

/-- Structured-output helper (OpenAILLMStructuredPredict): schema generation
and the model-client call are abstracted by `structuredChat`, the result of
`llm.StructuredChat` (raw response text or a transport error); `unmarshal`
models `json.Unmarshal` into `T` (`none` = decode error) and `zeroT` is the
zero value of `T`.  The source discards the `json.Unmarshal` error
(`_ = json.Unmarshal(...)`), so a decode failure yields the zero value with
a nil error instead of a reported failure. -/
def OpenAILLMStructuredPredict {T : Type} (structuredChat : Except String String)
    (unmarshal : String → Option T) (zeroT : T) : Except String T :=
  match structuredChat with
  | .error err => .error err
  | .ok chat =>
    match unmarshal chat with
    | some v => .ok v
    | none => .ok zeroT

/-- `json.Unmarshal` into the `Thought` struct: the input must be a JSON
object; a missing "thought" key leaves the zero field (no error); a
non-string "thought" value is a decode error. -/
def decodeThought (s : String) : Option Thought :=
  match jsonUnmarshalObj s with
  | .error _ => none
  | .ok fields =>
    match lookupKV "thought" fields with
    | some (.str t) => some ⟨t⟩
    | none => some ⟨""⟩
    | some _ => none

/-- agent.go: the system-prompt template (Go text/template with a single
placeholder), modelled as the text before and after the placeholder. -/
structure PromptTemplate where
  textBefore : String
  textAfter : String

/-- agent.go: the OpenAI ReAct agent.  The `Llm` field (the external model
client) is not part of the state; each Run is driven by an explicit script
of model replies instead. -/
structure OpenAIReActAgent where
  ChatHistory : List ChatMessage
  SystemPromptTemplate : PromptTemplate
  Tools : List Tool

/-- The fixed header of the tool table rendered by BuildSystemPrompt. -/
def tableHeader : String := "| Name | Description |\n|-------|-------|\n"

/-- One rendered table row: `fmt.Sprintf("| %s | %s |\n", name, description)`. -/
def toolRow (tool : Tool) : String :=
  "| " ++ tool.GetMetadata.Name ++ " | " ++ tool.GetMetadata.Description ++ " |\n"

/-- agent.go BuildSystemPrompt, table part: start from the header and append
one row per registered tool, then a blank separator. -/
def BuildToolTable (tools : List Tool) : String :=
  (tools.foldl (fun acc tool => acc ++ toolRow tool) tableHeader) ++ "\n\n"

/-- agent.go BuildSystemPrompt: render the template with the tool table
substituted for its placeholder, as a system-role message.  (The template
rendering of a constant template never fails, so the source's error path is
dead in the model.) -/
def OpenAIReActAgent.BuildSystemPrompt (o : OpenAIReActAgent) : ChatMessage :=
  { Role := "system"
    Content := o.SystemPromptTemplate.textBefore ++ BuildToolTable o.Tools
               ++ o.SystemPromptTemplate.textAfter }

/-- One scripted reply of the model client, as consumed by one
structured-output call (Think, Act or Observe).  `failure` models a
transport error from the model client. -/
inductive LLMReply where
  | thought (t : String)
  | action (a : Action)
  | observation (o : String)
  | failure (e : String)

/-- Observable events of a run, in order: the four callback invocations of
agent.go Run (`thoughtEv`, `actionEv`, `observationEv`, `stopEv`) plus two
instrumentation kinds — `toolExecEv`, recorded exactly where Run calls
`tool.Execute`, and `toolEndEv`, the tool-completion callback of the
protocol layer, which this Run revision never invokes (it has no such
callback parameter). -/
inductive Event where
  | thoughtEv (s : String)
  | actionEv (a : Action)
  | toolExecEv (name : String)
  | toolEndEv (result : JsonValue)
  | observationEv (s : String)
  | stopEv (s : String)

/-- Is this event a stop-callback invocation? -/
def isStopEv : Event → Bool
  | .stopEv _ => true
  | _ => false

/-- Is this event a tool-completion-callback invocation? -/
def isToolEndEv : Event → Bool
  | .toolEndEv _ => true
  | _ => false

/-- Is this event a tool execution? -/
def isToolExecEv : Event → Bool
  | .toolExecEv _ => true
  | _ => false

/-- The error classes Run can return, by provenance in the source:
transport and decode errors from the model path, the unsupported-action
error, `json.Unmarshal` failures from ArgsToMap, and tool-execution
failures (including mapstructure conversion errors). -/
inductive AgentError where
  | transport (msg : String)
  | unsupportedAction (actionType : String)
  | argumentDecode (msg : String)
  | execution (msg : String)

/-- How a run ends: a nil error, a returned error, or a runtime crash from
dereferencing a nil Action payload (which in Go is a panic, not a returned
error). -/
inductive RunOutcome where
  | ok
  | fail (e : AgentError)
  | nilDeref

/-- The mutable state of a run: the agent's chat history and the trace of
observable events so far. -/
structure AgentState where
  history : List ChatMessage
  trace : List Event

/-- The tool-dispatch section of agent.go Run (the `for _, tool := range
o.Tools` loop).  Go evaluates `action.ToolCall.Name` inside the loop body,
so the nil `ToolCall` pointer is dereferenced only when at least one tool
is registered.  A name matching no registered tool silently skips execution
and appends nothing (the source's behavior).  `Sum.inl` aborts the run with
the given outcome; `Sum.inr` continues the loop with the new state. -/
def dispatchTool (tools : List Tool) (a : Action) (st : AgentState) :
    (RunOutcome × AgentState) ⊕ AgentState :=
  match tools with
  | [] => .inr st
  | _ :: _ =>
    match a.ToolCall with
    | none => .inl (.nilDeref, st)
    | some tc =>
      match tools.find? (fun tool => tool.GetMetadata.Name == tc.Name) with
      | none => .inr st
      | some tool =>
        match tc.ArgsToMap with
        | .error e => .inl (.fail (.argumentDecode e), st)
        | .ok args =>
          match tool.Execute args with
          | .error e =>
            .inl (.fail (.execution e),
                  ⟨st.history, st.trace ++ [.toolExecEv tool.GetMetadata.Name]⟩)
          | .ok result =>
            .inr ⟨st.history ++
                    [⟨"user", "Tool call result from " ++ tool.GetMetadata.Name ++ ": "
                              ++ govFormat result⟩],
                  st.trace ++ [.toolExecEv tool.GetMetadata.Name]⟩

/-- The transport error produced when the reply script is exhausted. -/
def scriptExhausted : AgentError := .transport "model client: no reply"

/-- The error produced when a scripted reply has the wrong shape for the
call Go made (the per-call JSON schema makes this unreachable for
shape-conforming model replies). -/
def unexpectedReply : AgentError := .transport "unexpected structured output"

/-- The main loop of agent.go Run.  One iteration: Think (consumes a reply,
appends the thought as an assistant message, emits the thought callback),
Act (consumes a reply), then branch on the action type — "_done" emits the
stop callback and exits; "tool_call" emits the action callback, dispatches
the tool, then Observe (consumes a reply, appends and emits the
observation) and loops; any other type aborts with the unsupported-action
error. -/
def runLoop (tools : List Tool) : List LLMReply → AgentState → RunOutcome × AgentState
  | [], st => (.fail scriptExhausted, st)
  | reply1 :: script1, st =>
    match reply1 with
    | .failure e => (.fail (.transport e), st)
    | .thought t =>
      let st1 : AgentState :=
        ⟨st.history ++ [⟨"assistant", t⟩], st.trace ++ [.thoughtEv t]⟩
      match script1 with
      | [] => (.fail scriptExhausted, st1)
      | reply2 :: script2 =>
        match reply2 with
        | .failure e => (.fail (.transport e), st1)
        | .action a =>
          if a.ActionType = "_done" then
            match a.StopReason with
            | none => (.nilDeref, st1)
            | some sr => (.ok, ⟨st1.history, st1.trace ++ [.stopEv sr.Reason]⟩)
          else if a.ActionType = "tool_call" then
            let st2 : AgentState := ⟨st1.history, st1.trace ++ [.actionEv a]⟩
            match dispatchTool tools a st2 with
            | .inl out => out
            | .inr st3 =>
              match script2 with
              | [] => (.fail scriptExhausted, st3)
              | reply3 :: script3 =>
                match reply3 with
                | .failure e => (.fail (.transport e), st3)
                | .observation ob =>
                  let st4 : AgentState :=
                    ⟨st3.history ++ [⟨"assistant", ob⟩], st3.trace ++ [.observationEv ob]⟩
                  runLoop tools script3 st4
                | _ => (.fail unexpectedReply, st3)
          else (.fail (.unsupportedAction a.ActionType), st1)
        | _ => (.fail unexpectedReply, st1)
    | _ => (.fail unexpectedReply, st)

/-- agent.go Run: append the system prompt and the user prompt to the chat
history, then iterate the loop, driven by the reply script.  Returns the
outcome together with the final history and event trace. -/
def OpenAIReActAgent.Run (o : OpenAIReActAgent) (prompt : String)
    (script : List LLMReply) : RunOutcome × AgentState :=
  runLoop o.Tools script
    ⟨o.ChatHistory ++ [o.BuildSystemPrompt, ⟨"user", prompt⟩], []⟩

/-- The concatenation of the rendered rows of a tool list, in order. -/
def rowsOf : List Tool → String
  | [] => ""
  | t :: ts => toolRow t ++ rowsOf ts
/-- Does the remainder of the input not start with a digit (so that it
cannot extend a preceding number)? -/
def headNotDigit : List Char → Bool
  | [] => true
  | c :: _ => !c.isDigit

/-- First-some choice on options. -/
def orO (a b : Option JsonValue) : Option JsonValue :=
  match a with
  | some v => some v
  | none => b

/-- Unmarshal every argument payload of a tool call, fail-fast, keeping the
decoded field lists (used to state ArgsToMap's merge behavior). -/
def unmarshalAll : List ToolCallArgs → Except String (List (List (String × JsonValue)))
  | [] => .ok []
  | a :: rest =>
    match jsonUnmarshalObj a.ParameterValue with
    | .error e => .error e
    | .ok fs =>
      match unmarshalAll rest with
      | .error e => .error e
      | .ok rest2 => .ok (fs :: rest2)

/-- Is an Except value an error? -/
def isErr {e a : Type} : Except e a → Bool
  | .error _ => true
  | .ok _ => false

/-- `json.Marshal` of a parameter mapping, as a string (the JSON-string
argument form of the encoding direction). -/
def serializeObj (m : ParamMap) : String := String.mk (serVal (.obj m))

/-- cli/main.go: the parameter struct of the "add" tool
(`X int json:"x"`, `Y int json:"y"`). -/
structure AddParams where
  X : Int
  Y : Int

/-- mapstructure.Decode (TagName "json") into one int-kinded struct field:
a missing key — and a JSON null — leave the zero value without error; a
numeric value converts; any other dynamic type is a conversion error. -/
def decodeIntField (m : ParamMap) (key : String) : Except String Int :=
  match lookupKV key m with
  | none => .ok 0
  | some (.num n) => .ok n
  | some .null => .ok 0
  | some _ => .error (key ++ ": unconvertible dynamic type")

/-- mapstructure.Decode (TagName "json") into AddParams. -/
def decodeAddParams (m : ParamMap) : Except String AddParams :=
  match decodeIntField m "x" with
  | .error e => .error e
  | .ok x =>
    match decodeIntField m "y" with
    | .error e => .error e
    | .ok y => .ok ⟨x, y⟩

/-- cli/main.go: the "add" tool definition; its function returns x + y.
The fields metadata is what reflection derives from AddParams. -/
def addToolDef : ToolDefinition AddParams :=
  { fn := fun p => .ok (.num (p.X + p.Y))
    Name := "add"
    Description := "Tool for adding two integrer numbers together. Takes two arguments, x and y, both integers."
    fieldsMeta := [⟨"x", "", "int"⟩, ⟨"y", "", "int"⟩]
    mapstructureDecode := decodeAddParams }

/-- The "add" tool as a Tool interface value. -/
def addTool : Tool := addToolDef.toTool

/-- A registration fixture whose parameter metadata carries a marker json
tag ("qqq") occurring nowhere in its name or description. -/
def qqqToolDef : ToolDefinition AddParams :=
  { fn := fun p => .ok (.num (p.X + p.Y))
    Name := "mytool"
    Description := "does things"
    fieldsMeta := [⟨"qqq", "marker parameter", "int"⟩]
    mapstructureDecode := decodeAddParams }

/-- The marker tool as a Tool interface value. -/
def qqqTool : Tool := qqqToolDef.toTool

/-- A simple concrete system-prompt template. -/
def tpl0 : PromptTemplate := ⟨"You are a helpful agent. Tools:\n", "Answer the user."⟩

/-- A concrete agent with an empty starting history and the "add" tool. -/
def agent0 : OpenAIReActAgent := ⟨[], tpl0, [addTool]⟩

/-- Script: the model asks for the tool "ghost", which is not registered,
then observes and stops. -/
def ghostScript : List LLMReply :=
  [.thought "t1",
   .action ⟨"tool_call", none, some ⟨"ghost", []⟩⟩,
   .observation "o1",
   .thought "t2",
   .action ⟨"_done", some ⟨"stopped"⟩, none⟩]

/-- Script: the model asks for the unregistered tool "ghost" with a
malformed JSON argument payload, then observes and stops. -/
def badGhostScript : List LLMReply :=
  [.thought "t1",
   .action ⟨"tool_call", none, some ⟨"ghost", [⟨"not-json"⟩]⟩⟩,
   .observation "o1",
   .thought "t2",
   .action ⟨"_done", some ⟨"stopped"⟩, none⟩]

/-
Theorems.  Claim-level theorems are named after the behavior they settle;
helper lemmas precede them.
-/

/-- C1: the structured-output prediction does not report decode failures.
On the malformed model response "not-json" (target shape Thought) it
succeeds with the zero-valued Thought instead of returning a DecodeError;
on a well-formed response it returns the decoded value.  This contradicts
the claim, which requires a DecodeError for every malformed response. -/
theorem structuredPredict_swallows_decode_failure :
    OpenAILLMStructuredPredict (.ok "not-json") decodeThought ⟨""⟩ = .ok (⟨""⟩ : Thought) ∧
    OpenAILLMStructuredPredict (.ok "\x7b\"thought\":\"hi\"\x7d") decodeThought ⟨""⟩
      = .ok (⟨"hi"⟩ : Thought) :=
  ⟨rfl, rfl⟩

/-- C2: a ToolCall naming an unregistered tool ("ghost", registry = [add])
does not abort the run: Run executes no tool, appends no tool-result
message (the history gains only the thought/observation/thought assistant
messages), continues looping, and returns without error once the model
stops.  This contradicts the claim, which requires an UnknownToolError-class
failure. -/
theorem run_unknown_tool_silently_continues :
    (agent0.Run "p" ghostScript).1 = .ok ∧
    ((agent0.Run "p" ghostScript).2.trace.filter isToolExecEv) = [] ∧
    (agent0.Run "p" ghostScript).2.history =
      [agent0.BuildSystemPrompt, ⟨"user", "p"⟩, ⟨"assistant", "t1"⟩,
       ⟨"assistant", "o1"⟩, ⟨"assistant", "t2"⟩] ∧
    ((agent0.Run "p" ghostScript).2.trace.filter isStopEv) = [.stopEv "stopped"] :=
  ⟨rfl, rfl, rfl, rfl⟩

/-- C3: when the model immediately answers the first Acting step with
`Done` and stop reason `r` (after the initial Thought), Run emits the stop
callback exactly once with `r`, emits no tool-completion event, executes no
tool, and returns without error. -/
theorem run_done_immediately_stops_once (hist : List ChatMessage) (tpl : PromptTemplate)
    (tools : List Tool) (prompt t r : String) :
    (OpenAIReActAgent.Run ⟨hist, tpl, tools⟩ prompt
        [.thought t, .action ⟨"_done", some ⟨r⟩, none⟩]).1 = .ok ∧
    ((OpenAIReActAgent.Run ⟨hist, tpl, tools⟩ prompt
        [.thought t, .action ⟨"_done", some ⟨r⟩, none⟩]).2.trace.filter isStopEv)
      = [.stopEv r] ∧
    ((OpenAIReActAgent.Run ⟨hist, tpl, tools⟩ prompt
        [.thought t, .action ⟨"_done", some ⟨r⟩, none⟩]).2.trace.filter isToolEndEv) = [] ∧
    ((OpenAIReActAgent.Run ⟨hist, tpl, tools⟩ prompt
        [.thought t, .action ⟨"_done", some ⟨r⟩, none⟩]).2.trace.filter isToolExecEv) = [] := by
  refine ⟨?_, ?_, ?_, ?_⟩ <;>
    simp [OpenAIReActAgent.Run, runLoop, isStopEv, isToolEndEv, isToolExecEv]

/-- C5 counterexample: with both declared fields absent from the parameter
map, Execute does not return an ExecutionError — mapstructure leaves the
zero values and the tool function is invoked (its result 0 + 0 is
returned).  This falsifies the claim's "missing required field is returned
as an ExecutionError rather than invoking the tool function". -/
theorem execute_missing_fields_invokes_fn :
    addToolDef.Execute [] = .ok (.num 0) :=
  rfl

/-- C5 amended: Execute converts the untyped map via the json field tags; a
wrongly-typed present field is a conversion error returned to the caller
(the tool function, which always succeeds, is not the source of the
error); a missing field is zero-valued without error and the function is
invoked; a well-typed map is decoded and the function applied to it. -/
theorem execute_type_conversion :
    addToolDef.Execute [("x", .str "five"), ("y", .num 3)]
      = .error "x: unconvertible dynamic type" ∧
    addToolDef.Execute [("y", .num 3)] = .ok (.num 3) ∧
    addToolDef.Execute [("x", .num 2), ("y", .num 3)] = .ok (.num 5) :=
  ⟨rfl, rfl, rfl⟩

/-- C10: Run's crash-freedom depends on the Action payload matching the
discriminant: a "_done" action with a nil StopReason pointer makes Run
dereference nil (a runtime panic, not a reported error), and — whenever at
least one tool is registered — so does a "tool_call" action with a nil
ToolCall pointer. -/
theorem run_nil_payload_nil_deref (hist : List ChatMessage) (tpl : PromptTemplate)
    (tools : List Tool) (prompt t : String) (hne : tools ≠ []) :
    (OpenAIReActAgent.Run ⟨hist, tpl, tools⟩ prompt
        [.thought t, .action ⟨"_done", none, none⟩]).1 = .nilDeref ∧
    (OpenAIReActAgent.Run ⟨hist, tpl, tools⟩ prompt
        [.thought t, .action ⟨"tool_call", none, none⟩]).1 = .nilDeref := by
  refine ⟨by simp [OpenAIReActAgent.Run, runLoop], ?_⟩
  cases tools with
  | nil => exact absurd rfl hne
  | cons tool rest => simp [OpenAIReActAgent.Run, runLoop, dispatchTool]

/-- Witness for C10 at a concrete agent with the "add" tool registered. -/
theorem run_nil_payload_nil_deref_witness :
    (OpenAIReActAgent.Run ⟨[], tpl0, [addTool]⟩ "p"
        [.thought "t", .action ⟨"_done", none, none⟩]).1 = .nilDeref ∧
    (OpenAIReActAgent.Run ⟨[], tpl0, [addTool]⟩ "p"
        [.thought "t", .action ⟨"tool_call", none, none⟩]).1 = .nilDeref :=
  run_nil_payload_nil_deref [] tpl0 [addTool] "p" "t" (by simp)

/-- In every aborting branch of tool dispatch, the chat history is returned
unchanged. -/
theorem dispatchTool_inl_history {tools : List Tool} {a : Action} {st : AgentState}
    {out : RunOutcome × AgentState} (h : dispatchTool tools a st = .inl out) :
    out.2.history = st.history := by
  unfold dispatchTool at h
  repeat' split at h
  all_goals first
    | (simp_all; done)
    | (cases h; rfl)

/-- In every continuing branch of tool dispatch, the entry history is a
prefix of the returned history (only appends happen). -/
theorem dispatchTool_inr_history {tools : List Tool} {a : Action} {st : AgentState}
    {st2 : AgentState} (h : dispatchTool tools a st = .inr st2) :
    st.history <+: st2.history := by
  unfold dispatchTool at h
  repeat' split at h
  all_goals first
    | (simp_all; done)
    | (cases h; first | exact List.prefix_rfl | exact List.prefix_append _ _)

/-- The loop only appends to the chat history: the entry history is a
prefix of the final history, whatever the script, registry and state. -/
theorem runLoop_extends (tools : List Tool) (script : List LLMReply) (st : AgentState) :
    st.history <+: (runLoop tools script st).2.history := by
  induction script, st using runLoop.induct tools
  all_goals simp only [runLoop]
  all_goals try (simp_all; done)
  next st t st1 script3 a h st2 out heq =>
    have hout := dispatchTool_inl_history heq
    simp only [runLoop, h]
    unfold_let st2 st1 at heq
    rw [heq]
    exact hout ▸ List.prefix_append _ _
  next st t st1 a h1 h2 st2 st3 heq =>
    have hh := dispatchTool_inr_history heq
    simp only [runLoop, h2]
    unfold_let st2 st1 at heq
    rw [heq]
    exact List.IsPrefix.trans (List.prefix_append _ _) hh
  next st t st1 a h1 h2 st2 st3 heq script3 e =>
    have hh := dispatchTool_inr_history heq
    simp only [runLoop, h2]
    unfold_let st2 st1 at heq
    rw [heq]
    exact List.IsPrefix.trans (List.prefix_append _ _) hh
  next st t st1 a h1 h2 st2 st3 heq script3 ob st4 ih1 =>
    have hh := dispatchTool_inr_history heq
    simp only [runLoop, h2]
    unfold_let st2 st1 at heq
    rw [heq]
    exact (((List.prefix_append _ _).trans hh).trans (List.prefix_append _ _)).trans ih1
  next st t st1 a h1 h2 st2 st3 heq reply3 script3 hne1 hne2 =>
    have hh := dispatchTool_inr_history heq
    simp only [runLoop, h2]
    unfold_let st2 st1 at heq
    rw [heq]
    cases reply3 with
    | failure e => exact absurd rfl (hne1 e)
    | observation ob => exact absurd rfl (hne2 ob)
    | thought s => exact List.IsPrefix.trans (List.prefix_append _ _) hh
    | action a2 => exact List.IsPrefix.trans (List.prefix_append _ _) hh

/-- C9: every step of the loop only appends to the chat history — any entry
state's history is a prefix of the final history — and a run started on an
empty ChatHistory keeps the system-prompt message first (the final history
is the system prompt, then the user prompt, then whatever the turns
appended). -/
theorem run_history_append_only :
    (∀ (tools : List Tool) (script : List LLMReply) (st : AgentState),
        st.history <+: (runLoop tools script st).2.history) ∧
    (∀ (tpl : PromptTemplate) (tools : List Tool) (prompt : String) (script : List LLMReply),
        ∃ rest, (OpenAIReActAgent.Run ⟨[], tpl, tools⟩ prompt script).2.history =
          OpenAIReActAgent.BuildSystemPrompt ⟨[], tpl, tools⟩ ::
            ⟨"user", prompt⟩ :: rest) := by
  refine ⟨runLoop_extends, fun tpl tools prompt script => ?_⟩
  obtain ⟨rest, hr⟩ :=
    runLoop_extends tools script
      ⟨[OpenAIReActAgent.BuildSystemPrompt ⟨[], tpl, tools⟩, ⟨"user", prompt⟩], []⟩
  exact ⟨rest, by simpa using hr.symm⟩

/-- If any argument payload of a tool call fails to unmarshal, the argument
loop of ArgsToMap returns an error (fail-fast, no partial mapping). -/
theorem argsToMapGo_error_of_bad (args : List ToolCallArgs) (acc : ParamMap)
    (h : ∃ arg ∈ args, isErr (jsonUnmarshalObj arg.ParameterValue) = true) :
    ∃ e, argsToMapGo args acc = .error e := by
  induction args generalizing acc with
  | nil => simp at h
  | cons a rest ih =>
    cases hj : jsonUnmarshalObj a.ParameterValue with
    | error e => exact ⟨e, by simp [argsToMapGo, hj]⟩
    | ok fs =>
      obtain ⟨arg, hmem, hbad⟩ := h
      rcases List.mem_cons.mp hmem with rfl | hmem2
      · rw [hj] at hbad; simp [isErr] at hbad
      · obtain ⟨e, he⟩ := ih (insertFields acc fs) ⟨arg, hmem2, hbad⟩
        exact ⟨e, by simp [argsToMapGo, hj, he]⟩

/-- C4 counterexample: when the malformed-payload ToolCall names an
unregistered tool ("ghost"), Run does not abort at all — the argument
payload is never decoded (decoding happens only after a registry match),
the loop continues, and the run ends successfully.  This falsifies the
claim as stated, which requires an ArgumentDecodeError abort for every
ToolCall carrying a malformed argument payload. -/
theorem run_bad_args_unknown_tool_no_abort :
    (agent0.Run "p" badGhostScript).1 = .ok ∧
    ((agent0.Run "p" badGhostScript).2.trace.filter isToolExecEv) = [] :=
  ⟨rfl, rfl⟩

/-- C4 amended: for every ToolCall whose name matches a registered tool and
which carries an argument whose payload is not valid JSON, Run aborts with
an ArgumentDecodeError-class failure before executing any tool and before
any tool-completion event, and nothing is appended to the history beyond
the thought — no partial execution occurs. -/
theorem run_malformed_args_aborts (hist : List ChatMessage) (tpl : PromptTemplate)
    (tools : List Tool) (prompt t : String) (sr : Option StopReason) (tc : ToolCall)
    (tool : Tool)
    (hfind : tools.find? (fun tl => tl.GetMetadata.Name == tc.Name) = some tool)
    (hbad : ∃ arg ∈ tc.Args, isErr (jsonUnmarshalObj arg.ParameterValue) = true) :
    ∃ e,
      (OpenAIReActAgent.Run ⟨hist, tpl, tools⟩ prompt
          [.thought t, .action ⟨"tool_call", sr, some tc⟩]).1 = .fail (.argumentDecode e) ∧
      ((OpenAIReActAgent.Run ⟨hist, tpl, tools⟩ prompt
          [.thought t, .action ⟨"tool_call", sr, some tc⟩]).2.trace.filter isToolExecEv) = [] ∧
      ((OpenAIReActAgent.Run ⟨hist, tpl, tools⟩ prompt
          [.thought t, .action ⟨"tool_call", sr, some tc⟩]).2.trace.filter isToolEndEv) = [] ∧
      (OpenAIReActAgent.Run ⟨hist, tpl, tools⟩ prompt
          [.thought t, .action ⟨"tool_call", sr, some tc⟩]).2.history =
        hist ++ [OpenAIReActAgent.BuildSystemPrompt ⟨hist, tpl, tools⟩,
                 ⟨"user", prompt⟩, ⟨"assistant", t⟩] := by
  obtain ⟨e, he⟩ := argsToMapGo_error_of_bad tc.Args [] hbad
  have harg : tc.ArgsToMap = .error e := he
  cases tools with
  | nil => simp at hfind
  | cons tool1 rest =>
    refine ⟨e, ?_, ?_, ?_, ?_⟩ <;>
      simp [OpenAIReActAgent.Run, runLoop, dispatchTool, hfind, harg,
            isToolExecEv, isToolEndEv]

/-- Witness for C4 at the registered "add" tool with the payload
"not-json". -/
theorem run_malformed_args_aborts_witness :
    ∃ e,
      (OpenAIReActAgent.Run ⟨[], tpl0, [addTool]⟩ "p"
          [.thought "t", .action ⟨"tool_call", none, some ⟨"add", [⟨"not-json"⟩]⟩⟩]).1
        = .fail (.argumentDecode e) ∧
      ((OpenAIReActAgent.Run ⟨[], tpl0, [addTool]⟩ "p"
          [.thought "t", .action ⟨"tool_call", none, some ⟨"add", [⟨"not-json"⟩]⟩⟩]).2.trace.filter
        isToolExecEv) = [] ∧
      ((OpenAIReActAgent.Run ⟨[], tpl0, [addTool]⟩ "p"
          [.thought "t", .action ⟨"tool_call", none, some ⟨"add", [⟨"not-json"⟩]⟩⟩]).2.trace.filter
        isToolEndEv) = [] ∧
      (OpenAIReActAgent.Run ⟨[], tpl0, [addTool]⟩ "p"
          [.thought "t", .action ⟨"tool_call", none, some ⟨"add", [⟨"not-json"⟩]⟩⟩]).2.history =
        [] ++ [OpenAIReActAgent.BuildSystemPrompt ⟨[], tpl0, [addTool]⟩,
               ⟨"user", "p"⟩, ⟨"assistant", "t"⟩] :=
  run_malformed_args_aborts [] tpl0 [addTool] "p" "t" none ⟨"add", [⟨"not-json"⟩]⟩ addTool
    rfl ⟨⟨"not-json"⟩, by simp, rfl⟩

theorem natDigits_ne_nil (n : Nat) : natDigits n ≠ [] := by
  unfold natDigits
  split <;> simp

theorem digitChar_isDigit {n : Nat} (h : n < 10) : (digitChar n).isDigit = true := by
  interval_cases n <;> decide

theorem digitChar_toNat {n : Nat} (h : n < 10) : (digitChar n).toNat = 48 + n := by
  interval_cases n <;> decide

theorem natDigits_digits (n : Nat) : ∀ c ∈ natDigits n, c.isDigit = true := by
  induction n using natDigits.induct with
  | case1 n h =>
    rw [natDigits, if_pos h]
    intro c hc
    simp at hc
    subst hc
    exact digitChar_isDigit h
  | case2 n h ih =>
    rw [natDigits, if_neg h]
    intro c hc
    rcases List.mem_append.mp hc with h1 | h2
    · exact ih c h1
    · simp at h2
      subst h2
      exact digitChar_isDigit (Nat.mod_lt _ (by omega))

theorem natDigits_foldl (n : Nat) (a : Nat) :
    (natDigits n).foldl (fun a c => a * 10 + (c.toNat - 48)) a =
      a * 10 ^ (natDigits n).length + n := by
  induction n using natDigits.induct generalizing a with
  | case1 n h =>
    rw [natDigits, if_pos h]
    simp [digitChar_toNat h]
  | case2 n h ih =>
    rw [natDigits, if_neg h]
    rw [List.foldl_append, ih]
    simp [digitChar_toNat (Nat.mod_lt n (by omega) : n % 10 < 10), List.length_append,
          pow_succ]
    ring_nf
    omega

theorem takeWhile_append_all {p : Char → Bool} (l r : List Char)
    (hl : ∀ c ∈ l, p c = true) (hr : ∀ c, r.head? = some c → p c = false) :
    (l ++ r).takeWhile p = l ∧ (l ++ r).dropWhile p = r := by
  induction l with
  | nil =>
    simp only [List.nil_append]
    cases r with
    | nil => simp
    | cons c rest => simp [List.takeWhile, List.dropWhile, hr c rfl]
  | cons c l2 ih =>
    have hc := hl c (by simp)
    have ih2 := ih (fun c2 hc2 => hl c2 (by simp [hc2])) 
    simp [List.takeWhile, List.dropWhile, hc, ih2.1, ih2.2]

theorem parseNatCh_natDigits (n : Nat) (rest : List Char)
    (hr : headNotDigit rest = true) :
    parseNatCh (natDigits n ++ rest) = some (n, rest) := by
  have hr2 : ∀ c, rest.head? = some c → c.isDigit = false := by
    intro c hc
    cases rest with
    | nil => simp at hc
    | cons c2 r2 =>
      simp at hc
      subst hc
      simpa [headNotDigit] using hr
  have htake := takeWhile_append_all (p := fun c => c.isDigit) (natDigits n) rest
    (natDigits_digits n) hr2
  unfold parseNatCh
  rw [htake.1, htake.2]
  have hne := natDigits_ne_nil n
  simp [List.isEmpty_iff, hne, natDigits_foldl]

theorem isDigit_ne_minus {c : Char} (h : c.isDigit = true) : ¬ (c = '-') := by
  intro hc
  subst hc
  simp at h

theorem parseIntCh_serInt (n : Int) (rest : List Char)
    (hr : headNotDigit rest = true) :
    parseIntCh (serInt n ++ rest) = some (.num n, rest) := by
  unfold serInt
  split
  · next hneg =>
    simp only [List.cons_append, parseIntCh, if_true]
    rw [parseNatCh_natDigits _ _ hr]
    have hv : ((n.natAbs : Nat) : Int) = -n := by omega
    simp [hv]
  · next hpos =>
    cases hd : natDigits n.toNat with
    | nil => exact absurd hd (natDigits_ne_nil _)
    | cons c cs =>
      have hcd : c.isDigit = true := natDigits_digits n.toNat c (by rw [hd]; simp)
      simp only [List.cons_append, parseIntCh]
      rw [if_neg (isDigit_ne_minus hcd)]
      rw [← List.cons_append, ← hd, parseNatCh_natDigits _ _ hr]
      have hv : ((n.toNat : Nat) : Int) = n := by omega
      simp [hv]

theorem parseStrChars_escChars (s rest : List Char) :
    parseStrChars (escChars s ++ '"' :: rest) = some (s, rest) := by
  induction s with
  | nil =>
    simp only [escChars, List.nil_append]
    unfold parseStrChars
    rw [if_pos rfl]
  | cons c cs ih =>
    unfold escChars
    split
    · next hc =>
      simp only [List.cons_append]
      unfold parseStrChars
      rw [if_neg (by decide), if_pos rfl]
      simp [hc, ih]
    · next hc =>
      push_neg at hc
      simp only [List.cons_append]
      unfold parseStrChars
      rw [if_neg hc.1, if_neg hc.2, ih]

theorem isDigit_ne_special {c : Char} (h : c.isDigit = true) :
    c ≠ ']' ∧ c ≠ cbrace ∧ c ≠ ',' ∧ c ≠ ':' := by
  refine ⟨?_, ?_, ?_, ?_⟩ <;> (intro hc; subst hc; exact absurd h (by decide))

theorem jfuel_pos (v : JsonValue) : 1 ≤ jfuel v := by
  cases v <;> simp [jfuel]

theorem jfuelE_pos (xs : List JsonValue) : 1 ≤ jfuelE xs := by
  cases xs <;> simp [jfuelE]

theorem jfuelF_pos (fs : List (String × JsonValue)) : 1 ≤ jfuelF fs := by
  cases fs with
  | nil => simp [jfuelF]
  | cons f fs2 => obtain ⟨k, v⟩ := f; simp [jfuelF]

theorem serVal_head (v : JsonValue) :
    ∃ c cs, serVal v = c :: cs ∧ c ≠ ']' ∧ c ≠ cbrace ∧ c ≠ ',' ∧ c ≠ ':' := by
  cases v with
  | null => exact ⟨'n', _, rfl, by decide, by decide, by decide, by decide⟩
  | bool b =>
    cases b
    · exact ⟨'f', _, rfl, by decide, by decide, by decide, by decide⟩
    · exact ⟨'t', _, rfl, by decide, by decide, by decide, by decide⟩
  | num n =>
    show ∃ c cs, serInt n = c :: cs ∧ _
    unfold serInt
    split
    · exact ⟨'-', _, rfl, by decide, by decide, by decide, by decide⟩
    · cases hd : natDigits n.toNat with
      | nil => exact absurd hd (natDigits_ne_nil _)
      | cons c cs =>
        have hcd : c.isDigit = true := natDigits_digits _ c (by rw [hd]; simp)
        obtain ⟨h1, h2, h3, h4⟩ := isDigit_ne_special hcd
        exact ⟨c, cs, rfl, h1, h2, h3, h4⟩
  | str s => exact ⟨'"', _, rfl, by decide, by decide, by decide, by decide⟩
  | arr xs =>
    cases xs with
    | nil => exact ⟨'[', _, rfl, by decide, by decide, by decide, by decide⟩
    | cons x xs2 => exact ⟨'[', _, rfl, by decide, by decide, by decide, by decide⟩
  | obj fs =>
    cases fs with
    | nil => exact ⟨obrace, _, rfl, by decide, by decide, by decide, by decide⟩
    | cons f fs2 => exact ⟨obrace, _, rfl, by decide, by decide, by decide, by decide⟩

theorem parseVal_not_special {c : Char} (fuel : Nat) (r : List Char)
    (h1 : ¬ c = 'n') (h2 : ¬ c = 't') (h3 : ¬ c = 'f') (h4 : ¬ c = '"')
    (h5 : ¬ c = '[') (h6 : ¬ c = obrace) :
    parseVal (fuel + 1) (c :: r) =
      (if c = '-' ∨ c.isDigit = true then parseIntCh (c :: r) else none) := by
  simp [parseVal, h1, h2, h3, h4, h5, h6]

theorem parseVal_serInt (fuel : Nat) (n : Int) (rest : List Char)
    (hr : headNotDigit rest = true) :
    parseVal (fuel + 1) (serInt n ++ rest) = some (.num n, rest) := by
  have hd : ∃ c cs, serInt n = c :: cs ∧ (c = '-' ∨ c.isDigit = true) := by
    unfold serInt
    split
    · exact ⟨'-', _, rfl, Or.inl rfl⟩
    · cases hd : natDigits n.toNat with
      | nil => exact absurd hd (natDigits_ne_nil _)
      | cons c cs =>
        exact ⟨c, cs, rfl, Or.inr (natDigits_digits _ c (by rw [hd]; simp))⟩
  obtain ⟨c, cs, hser, hc⟩ := hd
  have hne : ¬ c = 'n' ∧ ¬ c = 't' ∧ ¬ c = 'f' ∧ ¬ c = '"' ∧ ¬ c = '[' ∧ ¬ c = obrace := by
    rcases hc with rfl | hdig
    · refine ⟨by decide, by decide, by decide, by decide, by decide, by decide⟩
    · refine ⟨fun hcc => ?_, fun hcc => ?_, fun hcc => ?_, fun hcc => ?_, fun hcc => ?_,
          fun hcc => ?_⟩ <;> (subst hcc; exact absurd hdig (by decide))
  rw [hser, List.cons_append,
      parseVal_not_special fuel _ hne.1 hne.2.1 hne.2.2.1 hne.2.2.2.1 hne.2.2.2.2.1
        hne.2.2.2.2.2,
      if_pos (by rcases hc with rfl | hdig; exact Or.inl rfl; exact Or.inr hdig),
      ← List.cons_append, ← hser]
  exact parseIntCh_serInt n rest hr

theorem serElems_cons_head (x : JsonValue) (xs : List JsonValue) :
    ∃ c cs, serElems (x :: xs) = c :: cs ∧ c ≠ ']' ∧ c ≠ cbrace ∧ c ≠ ',' ∧ c ≠ ':' := by
  obtain ⟨c, cs, hser, h1, h2, h3, h4⟩ := serVal_head x
  cases xs with
  | nil => exact ⟨c, cs, by simp [serElems, hser], h1, h2, h3, h4⟩
  | cons y ys =>
    exact ⟨c, cs ++ ',' :: serElems (y :: ys), by simp [serElems, hser], h1, h2, h3, h4⟩

theorem serFields_cons_head (f : String × JsonValue) (fs : List (String × JsonValue)) :
    ∃ tail, serFields (f :: fs) = '"' :: tail := by
  obtain ⟨k, v⟩ := f
  cases fs with
  | nil => exact ⟨_, rfl⟩
  | cons g gs => exact ⟨_, rfl⟩

theorem parseVal_arr_cons (fuel : Nat) (x : JsonValue) (xs : List JsonValue)
    (rest : List Char) :
    parseVal (fuel + 1) ('[' :: (serElems (x :: xs) ++ rest)) =
      (match parseElems fuel (serElems (x :: xs) ++ rest) with
       | some (xs2, r2) => some (.arr xs2, r2)
       | none => none) := by
  obtain ⟨c, cs, hser, h1, _, _, _⟩ := serElems_cons_head x xs
  rw [hser, List.cons_append]
  simp [parseVal, h1]

theorem parseVal_obj_cons (fuel : Nat) (f : String × JsonValue)
    (fs : List (String × JsonValue)) (rest : List Char) :
    parseVal (fuel + 1) (obrace :: (serFields (f :: fs) ++ rest)) =
      (match parseFields fuel (serFields (f :: fs) ++ rest) with
       | some (fs2, r2) => some (.obj fs2, r2)
       | none => none) := by
  obtain ⟨tail, hser⟩ := serFields_cons_head f fs
  rw [hser, List.cons_append]
  simp [parseVal, obrace, cbrace]

theorem parseVal_quote (fuel : Nat) (r : List Char) :
    parseVal (fuel + 1) ('"' :: r) =
      (match parseStrChars r with
       | some (s, r2) => some (.str (String.mk s), r2)
       | none => none) := by
  simp [parseVal]

theorem jfuel_arr (xs : List JsonValue) : jfuel (.arr xs) = 1 + jfuelE xs := by
  simp [jfuel]

theorem jfuel_obj (fs : List (String × JsonValue)) : jfuel (.obj fs) = 1 + jfuelF fs := by
  simp [jfuel]

theorem jfuelE_cons (x : JsonValue) (xs : List JsonValue) :
    jfuelE (x :: xs) = 1 + max (jfuel x) (jfuelE xs) := by
  simp [jfuelE]

theorem jfuelF_cons (k : String) (v : JsonValue) (fs : List (String × JsonValue)) :
    jfuelF ((k, v) :: fs) = 1 + max (jfuel v) (jfuelF fs) := by
  simp [jfuelF]

theorem parse_ser_all (fuel : Nat) :
    (∀ (v : JsonValue) (rest : List Char), jfuel v ≤ fuel → headNotDigit rest = true →
      parseVal fuel (serVal v ++ rest) = some (v, rest)) ∧
    (∀ (xs : List JsonValue) (rest : List Char), xs ≠ [] → jfuelE xs ≤ fuel →
      parseElems fuel (serElems xs ++ ']' :: rest) = some (xs, rest)) ∧
    (∀ (fs : List (String × JsonValue)) (rest : List Char), fs ≠ [] → jfuelF fs ≤ fuel →
      parseFields fuel (serFields fs ++ cbrace :: rest) = some (fs, rest)) := by
  induction fuel with
  | zero =>
    refine ⟨fun v rest hf _ => absurd hf (by have := jfuel_pos v; omega),
            fun xs rest hne hf => absurd hf (by have := jfuelE_pos xs; omega),
            fun fs rest hne hf => absurd hf (by have := jfuelF_pos fs; omega)⟩
  | succ fuel ih =>
    obtain ⟨ihP, ihQ, ihR⟩ := ih
    refine ⟨?_, ?_, ?_⟩
    · intro v rest hf hr
      cases v with
      | null => simp [serVal, parseVal]
      | bool b => cases b <;> simp [serVal, parseVal]
      | num n =>
        rw [show serVal (.num n) = serInt n from by simp [serVal]]
        exact parseVal_serInt fuel n rest hr
      | str s =>
        simp only [serVal, List.cons_append, List.append_assoc, List.singleton_append,
                   List.nil_append]
        rw [parseVal_quote, parseStrChars_escChars]
      | arr xs =>
        cases xs with
        | nil => simp [serVal, parseVal]
        | cons x xs2 =>
          have hfe : jfuelE (x :: xs2) ≤ fuel := by rw [jfuel_arr] at hf; omega
          simp only [serVal, List.cons_append, List.append_assoc, List.singleton_append,
                     List.nil_append]
          rw [parseVal_arr_cons, ihQ (x :: xs2) rest (by simp) hfe]
      | obj fs =>
        cases fs with
        | nil => simp [serVal, parseVal, obrace, cbrace]
        | cons f fs2 =>
          have hff : jfuelF (f :: fs2) ≤ fuel := by rw [jfuel_obj] at hf; omega
          simp only [serVal, List.cons_append, List.append_assoc, List.singleton_append,
                     List.nil_append]
          rw [parseVal_obj_cons, ihR (f :: fs2) rest (by simp) hff]
    · intro xs rest hne hf
      cases xs with
      | nil => exact absurd rfl hne
      | cons x xs2 =>
        cases xs2 with
        | nil =>
          have hfx : jfuel x ≤ fuel := by rw [jfuelE_cons] at hf; omega
          simp only [serElems, parseElems]
          rw [ihP x (']' :: rest) hfx (by simp [headNotDigit])]
          simp
        | cons y ys =>
          have hfx : jfuel x ≤ fuel := by rw [jfuelE_cons] at hf; omega
          have hfy : jfuelE (y :: ys) ≤ fuel := by rw [jfuelE_cons] at hf; omega
          simp only [serElems, List.cons_append, List.append_assoc]
          simp only [parseElems]
          rw [ihP x (',' :: (serElems (y :: ys) ++ ']' :: rest)) hfx
                (by simp [headNotDigit])]
          simp [ihQ (y :: ys) rest (by simp) hfy]
    · intro fs rest hne hf
      cases fs with
      | nil => exact absurd rfl hne
      | cons f fs2 =>
        obtain ⟨k, v⟩ := f
        cases fs2 with
        | nil =>
          have hfv : jfuel v ≤ fuel := by rw [jfuelF_cons] at hf; omega
          simp only [serFields, List.cons_append, List.append_assoc]
          simp only [parseFields]
          rw [parseStrChars_escChars k.data (':' :: (serVal v ++ cbrace :: rest))]
          simp [ihP v (cbrace :: rest) hfv (by simp [headNotDigit, cbrace])]
          simp [cbrace]
        | cons g gs =>
          obtain ⟨k2, v2⟩ := g
          have hfv : jfuel v ≤ fuel := by rw [jfuelF_cons] at hf; omega
          have hfg : jfuelF ((k2, v2) :: gs) ≤ fuel := by rw [jfuelF_cons] at hf; omega
          simp only [serFields, List.cons_append, List.append_assoc]
          simp only [parseFields]
          rw [parseStrChars_escChars k.data
                (':' :: (serVal v ++ ',' :: (serFields ((k2, v2) :: gs) ++ cbrace :: rest)))]
          simp [ihP v (',' :: (serFields ((k2, v2) :: gs) ++ cbrace :: rest)) hfv
                  (by simp [headNotDigit]),
                ihR ((k2, v2) :: gs) rest (by simp) hfg]

theorem serVal_len_pos (v : JsonValue) : 1 ≤ (serVal v).length := by
  obtain ⟨c, cs, hser, -, -, -, -⟩ := serVal_head v
  rw [hser]
  simp

theorem jfuel_le_serLen (N : Nat) :
    (∀ v : JsonValue, sizeOf v ≤ N → jfuel v ≤ (serVal v).length) ∧
    (∀ xs : List JsonValue, sizeOf xs ≤ N → jfuelE xs ≤ 1 + (serElems xs).length) ∧
    (∀ fs : List (String × JsonValue), sizeOf fs ≤ N → jfuelF fs ≤ 1 + (serFields fs).length) := by
  induction N with
  | zero =>
    refine ⟨fun v h => absurd h ?_, fun xs h => absurd h ?_, fun fs h => absurd h ?_⟩
    · cases v <;> simp
    · cases xs <;> simp
    · cases fs <;> simp
  | succ N ih =>
    obtain ⟨ihP, ihQ, ihR⟩ := ih
    refine ⟨?_, ?_, ?_⟩
    · intro v hv
      cases v with
      | null => simp [jfuel, serVal]
      | bool b => cases b <;> simp [jfuel, serVal]
      | num n =>
        have h1 : 1 ≤ (serInt n).length := by
          unfold serInt
          split
          · simp
          · have := natDigits_ne_nil n.toNat
            cases hd : natDigits n.toNat with
            | nil => exact absurd hd this
            | cons c cs => simp [hd]
        have h2 : serVal (.num n) = serInt n := by simp [serVal]
        simp [jfuel, h2]
        omega
      | str s =>
        have : jfuel (.str s) = 1 := by simp [jfuel]
        rw [this]
        exact le_trans (serVal_len_pos _) (le_refl _)
      | arr xs =>
        cases xs with
        | nil => simp [jfuel, jfuelE, serVal]
        | cons x xs2 =>
          have hs : sizeOf (x :: xs2) ≤ N := by
            have : sizeOf (JsonValue.arr (x :: xs2)) = 1 + sizeOf (x :: xs2) := by simp
            omega
          have := ihQ (x :: xs2) hs
          rw [jfuel_arr]
          have hlen : (serVal (.arr (x :: xs2))).length = 2 + (serElems (x :: xs2)).length := by
            simp [serVal]
            omega
          omega
      | obj fs =>
        cases fs with
        | nil => simp [jfuel, jfuelF, serVal]
        | cons f fs2 =>
          have hs : sizeOf (f :: fs2) ≤ N := by
            have : sizeOf (JsonValue.obj (f :: fs2)) = 1 + sizeOf (f :: fs2) := by simp
            omega
          have := ihR (f :: fs2) hs
          rw [jfuel_obj]
          have hlen : (serVal (.obj (f :: fs2))).length = 2 + (serFields (f :: fs2)).length := by
            simp [serVal]
            omega
          omega
    · intro xs hxs
      cases xs with
      | nil => simp [jfuelE, serElems]
      | cons x xs2 =>
        have hsx : sizeOf x ≤ N := by simp at hxs; omega
        have h1 := ihP x hsx
        rw [jfuelE_cons]
        cases xs2 with
        | nil =>
          have h2 : jfuelE ([] : List JsonValue) = 1 := by simp [jfuelE]
          have h3 := serVal_len_pos x
          simp [serElems, h2]
          omega
        | cons y ys =>
          have hsy : sizeOf (y :: ys) ≤ N := by
            have hexp : sizeOf (y :: ys) = 1 + sizeOf y + sizeOf ys := by simp
            simp at hxs
            omega
          have h2 := ihQ (y :: ys) hsy
          have hlen : (serElems (x :: y :: ys)).length =
              (serVal x).length + 1 + (serElems (y :: ys)).length := by
            simp [serElems]
            omega
          omega
    · intro fs hfs
      cases fs with
      | nil => simp [jfuelF, serFields]
      | cons f fs2 =>
        obtain ⟨k, v⟩ := f
        have hsv : sizeOf v ≤ N := by simp at hfs; omega
        have h1 := ihP v hsv
        rw [jfuelF_cons]
        cases fs2 with
        | nil =>
          simp [serFields, jfuelF]
          omega
        | cons g gs =>
          have hsg : sizeOf (g :: gs) ≤ N := by
            have hexp : sizeOf (g :: gs) = 1 + sizeOf g + sizeOf gs := by simp
            simp at hfs
            omega
          have h2 := ihR (g :: gs) hsg
          have hlen : (serFields ((k, v) :: g :: gs)).length =
              (escChars k.data).length + 3 + (serVal v).length + 1 +
                (serFields (g :: gs)).length := by
            simp [serFields]
            omega
          omega

theorem jsonUnmarshalObj_serializeObj (m : List (String × JsonValue)) :
    jsonUnmarshalObj (serializeObj m) = .ok m := by
  unfold jsonUnmarshalObj serializeObj
  have hdata : (String.mk (serVal (.obj m))).data = serVal (.obj m) := rfl
  rw [hdata]
  have hfuel : jfuel (.obj m) ≤ (serVal (.obj m)).length + 1 := by
    have := (jfuel_le_serLen (sizeOf (JsonValue.obj m))).1 (.obj m) (le_refl _)
    omega
  have hparse := (parse_ser_all ((serVal (.obj m)).length + 1)).1 (.obj m) [] hfuel rfl
  rw [List.append_nil] at hparse
  rw [hparse]

theorem insertKV_not_mem (m : ParamMap) (k : String) (v : JsonValue)
    (h : ¬ k ∈ m.map Prod.fst) : insertKV m k v = m ++ [(k, v)] := by
  induction m with
  | nil => rfl
  | cons kv rest ih =>
    obtain ⟨k2, v2⟩ := kv
    simp only [List.map_cons, List.mem_cons] at h
    push_neg at h
    have hk2 : ¬ (k2 = k) := fun hh => h.1 hh.symm
    simp [insertKV, hk2, ih h.2]

theorem insertFields_append (fields : List (String × JsonValue)) (m : ParamMap)
    (hdisj : ∀ k ∈ fields.map Prod.fst, ¬ k ∈ m.map Prod.fst)
    (hnd : (fields.map Prod.fst).Nodup) :
    insertFields m fields = m ++ fields := by
  induction fields generalizing m with
  | nil => simp [insertFields]
  | cons f rest ih =>
    obtain ⟨k, v⟩ := f
    have h1 : insertFields m ((k, v) :: rest) = insertFields (insertKV m k v) rest := rfl
    rw [h1, insertKV_not_mem m k v (hdisj k (by simp))]
    rw [ih (m ++ [(k, v)])]
    · simp
    · intro k2 hk2
      simp only [List.map_append, List.mem_append]
      push_neg
      constructor
      · exact hdisj k2 (by simp [hk2])
      · simp only [List.map_cons, List.nodup_cons] at hnd
        intro hcon
        simp at hcon
        exact hnd.1 (hcon ▸ hk2)
    · simp only [List.map_cons, List.nodup_cons] at hnd
      exact hnd.2

theorem argsToMap_roundTrip_core (tname : String) (m : List (String × JsonValue))
    (h : (m.map Prod.fst).Nodup) :
    ToolCall.ArgsToMap ⟨tname, [⟨serializeObj m⟩]⟩ = .ok m := by
  show argsToMapGo [⟨serializeObj m⟩] [] = .ok m
  simp only [argsToMapGo, jsonUnmarshalObj_serializeObj m]
  rw [insertFields_append m [] (by simp) h]
  simp [argsToMapGo]

theorem orO_none (a : Option JsonValue) : orO a none = a := by
  cases a <;> rfl

theorem lookupKV_append (k : String) (l1 l2 : ParamMap) :
    lookupKV k (l1 ++ l2) = orO (lookupKV k l1) (lookupKV k l2) := by
  induction l1 with
  | nil => rfl
  | cons kv rest ih =>
    obtain ⟨k2, v⟩ := kv
    by_cases hk : k2 = k <;> simp [lookupKV, hk, ih, orO]

theorem lookupKV_insertKV (k k2 : String) (v : JsonValue) (m : ParamMap) :
    lookupKV k2 (insertKV m k v) = if k = k2 then some v else lookupKV k2 m := by
  induction m with
  | nil =>
    by_cases hk : k = k2 <;> simp [insertKV, lookupKV, hk]
  | cons kv rest ih =>
    obtain ⟨k3, v3⟩ := kv
    by_cases h3 : k3 = k
    · subst h3
      by_cases hk : k3 = k2 <;> simp [insertKV, lookupKV, hk]
    · by_cases hk : k3 = k2
      · subst hk
        have hne : ¬ (k = k3) := fun hh => h3 hh.symm
        simp [insertKV, lookupKV, h3, hne]
      · simp [insertKV, lookupKV, h3, hk, ih]

theorem lookupKV_insertFields (fs : List (String × JsonValue)) (m : ParamMap) (k : String) :
    lookupKV k (insertFields m fs) = orO (lookupKV k fs.reverse) (lookupKV k m) := by
  induction fs generalizing m with
  | nil => simp [insertFields, lookupKV, orO]
  | cons kv rest ih =>
    obtain ⟨k1, v1⟩ := kv
    have hstep : insertFields m ((k1, v1) :: rest) = insertFields (insertKV m k1 v1) rest := rfl
    rw [hstep, ih, List.reverse_cons, lookupKV_append, lookupKV_insertKV]
    by_cases hk : k1 = k <;> cases hcase : lookupKV k rest.reverse <;>
      simp [orO, lookupKV, hk]

theorem lookupKV_foldl_insertFields (fsList : List (List (String × JsonValue)))
    (m : ParamMap) (k : String) :
    lookupKV k (fsList.foldl insertFields m) =
      orO (lookupKV k fsList.flatten.reverse) (lookupKV k m) := by
  induction fsList generalizing m with
  | nil => simp [lookupKV, orO]
  | cons f rest ih =>
    rw [List.foldl_cons, ih, List.flatten_cons, List.reverse_append, lookupKV_append,
        lookupKV_insertFields]
    cases lookupKV k rest.flatten.reverse <;> cases lookupKV k f.reverse <;> simp [orO]

theorem argsToMapGo_ok (args : List ToolCallArgs) (acc : ParamMap)
    (fsList : List (List (String × JsonValue)))
    (h : unmarshalAll args = .ok fsList) :
    argsToMapGo args acc = .ok (fsList.foldl insertFields acc) := by
  induction args generalizing acc fsList with
  | nil =>
    cases h
    rfl
  | cons a rest ih =>
    unfold unmarshalAll at h
    cases hj : jsonUnmarshalObj a.ParameterValue with
    | error e => rw [hj] at h; cases h
    | ok fs =>
      rw [hj] at h
      cases hrest : unmarshalAll rest with
      | error e => rw [hrest] at h; cases h
      | ok fsRest =>
        rw [hrest] at h
        cases h
        simp [argsToMapGo, hj, ih (insertFields acc fs) fsRest hrest]

/-- C6: when every argument payload of a tool call unmarshals to a
well-formed JSON object (field lists `fsList`), ArgsToMap succeeds with one
flat mapping whose lookups agree with the last binding of each key across
the concatenated fields — i.e. on a key collision the value from the later
argument (and, within one argument, the later duplicate) overwrites the
earlier one. -/
theorem argsToMap_merges_last_wins (tc : ToolCall)
    (fsList : List (List (String × JsonValue)))
    (h : unmarshalAll tc.Args = .ok fsList) :
    ∃ m, tc.ArgsToMap = .ok m ∧
      ∀ k, lookupKV k m = lookupKV k fsList.flatten.reverse := by
  refine ⟨fsList.foldl insertFields [], argsToMapGo_ok tc.Args [] fsList h, fun k => ?_⟩
  rw [lookupKV_foldl_insertFields]
  exact orO_none _

/-- Witness for C6: two argument payloads colliding on the key "x"; the
later argument's value wins. -/
theorem argsToMap_merges_last_wins_witness :
    ∃ m,
      ToolCall.ArgsToMap
          ⟨"t", [⟨"\x7b\"x\":2,\"y\":3\x7d"⟩, ⟨"\x7b\"x\":9\x7d"⟩]⟩ = .ok m ∧
      ∀ k, lookupKV k m =
        lookupKV k
          ([[("x", JsonValue.num 2), ("y", JsonValue.num 3)],
            [("x", JsonValue.num 9)]] : List (List (String × JsonValue))).flatten.reverse :=
  argsToMap_merges_last_wins
    ⟨"t", [⟨"\x7b\"x\":2,\"y\":3\x7d"⟩, ⟨"\x7b\"x\":9\x7d"⟩]⟩
    [[("x", JsonValue.num 2), ("y", JsonValue.num 3)], [("x", JsonValue.num 9)]] rfl

/-- C7: encode-decode round trip.  For every parameter mapping with
distinct keys, serializing it to the JSON-string argument form (one
ToolCallArgs whose parameter_value is the JSON serialization of the
mapping) and decoding with ArgsToMap yields the original mapping. -/
theorem argsToMap_encode_decode_roundTrip (tname : String)
    (m : List (String × JsonValue)) (h : (m.map Prod.fst).Nodup) :
    ToolCall.ArgsToMap ⟨tname, [⟨serializeObj m⟩]⟩ = .ok m :=
  argsToMap_roundTrip_core tname m h

/-- Witness for C7 at the mapping x ↦ 2, y ↦ 3. -/
theorem argsToMap_encode_decode_roundTrip_witness :
    ToolCall.ArgsToMap
        ⟨"add", [⟨serializeObj [("x", JsonValue.num 2), ("y", JsonValue.num 3)]⟩]⟩ =
      .ok [("x", JsonValue.num 2), ("y", JsonValue.num 3)] :=
  argsToMap_encode_decode_roundTrip "add" [("x", JsonValue.num 2), ("y", JsonValue.num 3)]
    (by decide)

theorem strAppend_assoc (a b c : String) : (a ++ b) ++ c = a ++ (b ++ c) := by
  apply String.ext
  simp [String.data_append, List.append_assoc]

theorem foldl_rows (l : List Tool) (acc : String) :
    l.foldl (fun a t => a ++ toolRow t) acc = acc ++ rowsOf l := by
  induction l generalizing acc with
  | nil => simp [rowsOf]
  | cons t ts ih =>
    rw [List.foldl_cons, ih]
    exact strAppend_assoc acc (toolRow t) (rowsOf ts)

theorem data_ne_nil_of_ne_empty {s : String} (h : s ≠ "") : s.data ≠ [] := by
  intro hdata
  exact h (String.ext (by rw [hdata]))

/-- C8 amended: for every sequence of valid tool registrations, the system
prompt rendered at run start embeds a table consisting of the fixed header
followed by exactly one row per registered tool, in registration order;
each row carries that tool's name and description (both non-empty for
valid registrations).  The tools' parameters are not rendered into the
table (see the counterexample). -/
theorem toolTable_rows (tools : List Tool) (tpl : PromptTemplate) (hist : List ChatMessage)
    (hvalid : ∀ tool ∈ tools,
      tool.GetMetadata.Name ≠ "" ∧ tool.GetMetadata.Description ≠ "") :
    BuildToolTable tools = tableHeader ++ rowsOf tools ++ "\n\n" ∧
    (∀ tool ∈ tools,
      tool.GetMetadata.Name.data ≠ [] ∧
      tool.GetMetadata.Name.data <:+: (toolRow tool).data ∧
      tool.GetMetadata.Description.data ≠ [] ∧
      tool.GetMetadata.Description.data <:+: (toolRow tool).data) ∧
    (OpenAIReActAgent.BuildSystemPrompt ⟨hist, tpl, tools⟩).Content =
      tpl.textBefore ++ BuildToolTable tools ++ tpl.textAfter := by
  refine ⟨?_, ?_, rfl⟩
  · unfold BuildToolTable
    rw [foldl_rows]
  · intro tool hmem
    obtain ⟨hn, hd⟩ := hvalid tool hmem
    refine ⟨data_ne_nil_of_ne_empty hn, ?_, data_ne_nil_of_ne_empty hd, ?_⟩
    · exact ⟨"| ".data, (" | " ++ tool.GetMetadata.Description ++ " |\n").data,
        by simp [toolRow, String.data_append]⟩
    · exact ⟨("| " ++ tool.GetMetadata.Name ++ " | ").data, (" |\n").data,
        by simp [toolRow, String.data_append]⟩

/-- C8 counterexample: a registered tool whose parameter metadata carries
the json tag "qqq" (occurring nowhere in its name or description) renders
to a table in which "qqq" does not occur: the rows do not carry the tool's
parameters, falsifying the claim as stated. -/
theorem toolTable_omits_parameters :
    ¬ (("qqq".data) <:+: (BuildToolTable [qqqTool]).data) := by
  decide

/-- Witness for C8 at the registry containing the repository's "add" tool. -/
theorem toolTable_rows_witness :
    BuildToolTable [addTool] = tableHeader ++ rowsOf [addTool] ++ "\n\n" ∧
    (∀ tool ∈ [addTool],
      tool.GetMetadata.Name.data ≠ [] ∧
      tool.GetMetadata.Name.data <:+: (toolRow tool).data ∧
      tool.GetMetadata.Description.data ≠ [] ∧
      tool.GetMetadata.Description.data <:+: (toolRow tool).data) ∧
    (OpenAIReActAgent.BuildSystemPrompt ⟨[], tpl0, [addTool]⟩).Content =
      tpl0.textBefore ++ BuildToolTable [addTool] ++ tpl0.textAfter :=
  toolTable_rows [addTool] tpl0 [] (by decide)

end Gopheract
